import Mathlib

/-!
Shallow embedding of `mitigation.py` and the relevant parts of `app.py` from the
`reverse-turing` repository, with proofs about the embedded functions.

Python floats are modelled as exact rationals (`ℚ`); NumPy vectors as `List ℚ`;
the Python dict built by `reweight_by_group` as an insertion-ordered association
list.
-/

namespace ReverseTuring

/-- `np.mean` on a vector of rationals: sum divided by length.  On the empty
vector NumPy returns NaN; in this embedding the value is `0` (division by zero),
and the only place the code takes the mean of a possibly-empty vector is the
final normalisation `w / np.mean(w)`, where elementwise division over an empty
vector yields the empty vector in either case. -/
def listMean (xs : List ℚ) : ℚ := xs.sum / xs.length

/-- `d.setdefault(k, []).append(v)` on a Python dict `d` mapping group keys to
lists of labels, represented as an insertion-ordered association list. -/
def setdefaultAppend {K : Type*} [DecidableEq K] (d : List (K × List ℚ)) (k : K) (v : ℚ) :
    List (K × List ℚ) :=
  match d with
  | [] => [(k, [v])]
  | (k₀, vs) :: rest =>
    if k₀ = k then (k₀, vs ++ [v]) :: rest else (k₀, vs) :: setdefaultAppend rest k v

/-- `d.get(k)` on the association-list dict: the stored list, if the key is present. -/
def dictGet {K : Type*} [DecidableEq K] (d : List (K × List ℚ)) (k : K) : Option (List ℚ) :=
  match d with
  | [] => none
  | (k₀, vs) :: rest => if k₀ = k then some vs else dictGet rest k

/-- The local `weights` list of `mitigation.reweight_by_group`: the first loop
builds `groups`, a dict from group key to the list of labels of the trials in
that group (via `setdefault(g, []).append(lab)`); the second loop fetches each
trial's group labels (`groups.get(g, [0])`), takes the group's mean label as the
selection rate (`0.5` if the list were empty, which cannot happen) and yields
the raw weight `1.0 / max(0.01, sel_rate)`.  `zip` truncates to the shorter
input, as in Python. -/
def reweightRawWeights {α K : Type*} [DecidableEq K]
    (resumes : List α) (labels : List ℚ) (protected_fn : α → K) : List ℚ :=
  let pairs := resumes.zip labels
  let groups := pairs.foldl (fun d p => setdefaultAppend d (protected_fn p.1) p.2) []
  pairs.map (fun p =>
    let grp := (dictGet groups (protected_fn p.1)).getD [0]
    let sel_rate := if 0 < grp.length then listMean grp else 1 / 2
    1 / max (1 / 100) sel_rate)

/-- `mitigation.reweight_by_group(resumes, labels, protected_fn)`: the raw
weight list above, returned as `w / np.mean(w)`. -/
def reweight_by_group {α K : Type*} [DecidableEq K]
    (resumes : List α) (labels : List ℚ) (protected_fn : α → K) : List ℚ :=
  let weights := reweightRawWeights resumes labels protected_fn
  weights.map (fun w => w / listMean weights)

/-- The labels of the trials in `pairs` that fall in group `g`: the partition of
the trial sequence by group key, stated directly as a filter. -/
def groupLabels {α K : Type*} [DecidableEq K] (pairs : List (α × ℚ)) (pf : α → K) (g : K) :
    List ℚ :=
  (pairs.filter (fun p => decide (pf p.1 = g))).map Prod.snd

/-- Group `g`'s mean outcome rate (selection rate). -/
def selectionRate {α K : Type*} [DecidableEq K] (pairs : List (α × ℚ)) (pf : α → K) (g : K) : ℚ :=
  listMean (groupLabels pairs pf g)

/-- The raw (pre-normalisation) weight vector: each trial gets
`1 / max(0.01, selection rate of its group)`, in trial order. -/
def rawWeights {α K : Type*} [DecidableEq K] (pairs : List (α × ℚ)) (pf : α → K) : List ℚ :=
  pairs.map (fun p => 1 / max (1 / 100) (selectionRate pairs pf (pf p.1)))

theorem dictGet_setdefaultAppend {K : Type*} [DecidableEq K]
    (d : List (K × List ℚ)) (k k' : K) (v : ℚ) :
    dictGet (setdefaultAppend d k v) k' =
      if k' = k then some (((dictGet d k).getD []) ++ [v]) else dictGet d k' := by
  induction d with
  | nil =>
    by_cases h : k' = k
    · subst h; simp [setdefaultAppend, dictGet]
    · simp [setdefaultAppend, dictGet, h, Ne.symm h]
  | cons q rest ih =>
    obtain ⟨k₀, vs⟩ := q
    by_cases h0 : k₀ = k
    · subst h0
      by_cases h : k' = k₀
      · subst h
        simp [setdefaultAppend, dictGet]
      · simp [setdefaultAppend, dictGet, h, Ne.symm h]
    · by_cases h : k' = k₀
      · subst h
        simp [setdefaultAppend, dictGet, h0, Ne.symm h0]
      · simp [setdefaultAppend, dictGet, h0, h, Ne.symm h, ih]

theorem groupLabels_cons {α K : Type*} [DecidableEq K] (p : α × ℚ) (rest : List (α × ℚ))
    (pf : α → K) (k : K) :
    groupLabels (p :: rest) pf k =
      (if pf p.1 = k then [p.2] else []) ++ groupLabels rest pf k := by
  by_cases h : pf p.1 = k <;> simp [groupLabels, h]

theorem dictGet_fold {α K : Type*} [DecidableEq K] (pf : α → K) (pairs : List (α × ℚ)) :
    ∀ (d : List (K × List ℚ)) (k : K),
      dictGet (pairs.foldl (fun d p => setdefaultAppend d (pf p.1) p.2) d) k =
        if (dictGet d k).isSome = true ∨ groupLabels pairs pf k ≠ []
        then some ((dictGet d k).getD [] ++ groupLabels pairs pf k)
        else none := by
  induction pairs with
  | nil =>
    intro d k
    rcases h : dictGet d k with _ | vs <;> simp [h, groupLabels]
  | cons p rest ih =>
    intro d k
    rw [List.foldl_cons, ih, groupLabels_cons]
    by_cases hk : pf p.1 = k
    · have hd : dictGet (setdefaultAppend d (pf p.1) p.2) k =
          some (((dictGet d k).getD []) ++ [p.2]) := by
        rw [dictGet_setdefaultAppend]; simp [hk]
      rw [hd]
      simp [hk, List.append_assoc]
    · have hd : dictGet (setdefaultAppend d (pf p.1) p.2) k = dictGet d k := by
        rw [dictGet_setdefaultAppend]; simp [Ne.symm hk]
      rw [hd]
      simp [hk]

theorem dictGet_groups_of_mem {α K : Type*} [DecidableEq K] (pf : α → K)
    (pairs : List (α × ℚ)) {p : α × ℚ} (hp : p ∈ pairs) :
    dictGet (pairs.foldl (fun d q => setdefaultAppend d (pf q.1) q.2) []) (pf p.1) =
        some (groupLabels pairs pf (pf p.1)) ∧
      groupLabels pairs pf (pf p.1) ≠ [] := by
  have hmem : p.2 ∈ groupLabels pairs pf (pf p.1) := by
    simp only [groupLabels, List.mem_map, List.mem_filter]
    exact ⟨p, ⟨hp, by simp⟩, rfl⟩
  have hne : groupLabels pairs pf (pf p.1) ≠ [] := List.ne_nil_of_mem hmem
  rw [dictGet_fold]
  simp [dictGet, hne]

/-- The `weights` list computed through the dict is exactly the raw weight
vector of the filter-based partition. -/
theorem reweightRawWeights_eq {α K : Type*} [DecidableEq K]
    (resumes : List α) (labels : List ℚ) (pf : α → K) :
    reweightRawWeights resumes labels pf = rawWeights (resumes.zip labels) pf := by
  simp only [reweightRawWeights, rawWeights]
  apply List.map_congr_left
  intro p hp
  obtain ⟨hg, hne⟩ := dictGet_groups_of_mem pf _ hp
  rw [hg]
  have hlen : 0 < (groupLabels (resumes.zip labels) pf (pf p.1)).length :=
    List.length_pos.mpr hne
  simp [hlen, selectionRate]

/-- The weight vector computed through the dict is exactly the raw weight vector
of the filter-based partition, normalised by its mean. -/
theorem reweight_eq_normalized_raw {α K : Type*} [DecidableEq K]
    (resumes : List α) (labels : List ℚ) (pf : α → K) :
    reweight_by_group resumes labels pf =
      (rawWeights (resumes.zip labels) pf).map
        (fun w => w / listMean (rawWeights (resumes.zip labels) pf)) := by
  simp only [reweight_by_group]
  rw [reweightRawWeights_eq]

theorem rawWeights_pos {α K : Type*} [DecidableEq K] (pairs : List (α × ℚ)) (pf : α → K) :
    ∀ w ∈ rawWeights pairs pf, 0 < w := by
  intro w hw
  simp only [rawWeights, List.mem_map] at hw
  obtain ⟨p, _, rfl⟩ := hw
  have hmax : (0 : ℚ) < max (1 / 100) (selectionRate pairs pf (pf p.1)) :=
    lt_of_lt_of_le (by norm_num) (le_max_left _ _)
  exact div_pos one_pos hmax

theorem listMean_pos {xs : List ℚ} (h : ∀ x ∈ xs, 0 < x) (hne : xs ≠ []) : 0 < listMean xs := by
  have hs : 0 < xs.sum := List.sum_pos xs h hne
  have hl : (0 : ℚ) < xs.length := by
    have : 0 < xs.length := List.length_pos.mpr hne
    exact_mod_cast this
  exact div_pos hs hl

theorem sum_map_div (xs : List ℚ) (c : ℚ) : (xs.map (fun x => x / c)).sum = xs.sum / c := by
  induction xs with
  | nil => simp
  | cons a t ih => simp [ih, add_div]

theorem listMean_normalize {xs : List ℚ} (h : listMean xs ≠ 0) (hne : xs ≠ []) :
    listMean (xs.map (fun x => x / listMean xs)) = 1 := by
  have hlen : (xs.length : ℚ) ≠ 0 := by
    have : 0 < xs.length := List.length_pos.mpr hne
    exact_mod_cast this.ne'
  have hsum : xs.sum ≠ 0 := by
    intro h0
    exact h (by simp [listMean, h0])
  unfold listMean at h ⊢
  rw [List.length_map, sum_map_div]
  field_simp

/-- C1: for every non-empty input (records with parallel outcome labels and a
group-key function), the weight vector returned by `reweight_by_group` has mean
exactly 1 (the floating-point tolerance is not needed over `ℚ`). -/
theorem reweight_mean_one {α K : Type*} [DecidableEq K]
    (resumes : List α) (labels : List ℚ) (pf : α → K)
    (hne : resumes ≠ []) (hlen : resumes.length = labels.length) :
    listMean (reweight_by_group resumes labels pf) = 1 := by
  rw [reweight_eq_normalized_raw]
  have hzip : resumes.zip labels ≠ [] := by
    intro h0
    have := congrArg List.length h0
    rw [List.length_zip, ← hlen, min_self] at this
    exact hne (List.length_eq_zero.mp this)
  have hraw : rawWeights (resumes.zip labels) pf ≠ [] := by
    simp only [rawWeights]
    exact fun h0 => hzip (List.map_eq_nil_iff.mp h0)
  exact listMean_normalize (ne_of_gt (listMean_pos (rawWeights_pos _ _) hraw)) hraw

theorem reweight_mean_one_witness :
    listMean (reweight_by_group [(1 : ℚ)] [(1 : ℚ)] (fun _ => (0 : ℕ))) = 1 :=
  reweight_mean_one [(1 : ℚ)] [(1 : ℚ)] (fun _ => (0 : ℕ)) (by decide) (by decide)

/-- C3: for every input with parallel labels, `reweight_by_group` is exactly the
raw weight vector of the group partition — each trial weighted
`1 / max(0.01, its group's selection rate)` — normalised by its mean, and the
result has the same length (hence the same trial order, being a `map` over the
trial sequence) as the input. -/
theorem reweight_matches_partition_spec {α K : Type*} [DecidableEq K]
    (resumes : List α) (labels : List ℚ) (pf : α → K)
    (hlen : resumes.length = labels.length) :
    reweight_by_group resumes labels pf =
        (rawWeights (resumes.zip labels) pf).map
          (fun w => w / listMean (rawWeights (resumes.zip labels) pf)) ∧
      (reweight_by_group resumes labels pf).length = resumes.length := by
  refine ⟨reweight_eq_normalized_raw _ _ _, ?_⟩
  rw [reweight_eq_normalized_raw]
  simp [rawWeights, hlen]

theorem reweight_matches_partition_spec_witness :
    reweight_by_group [(1 : ℚ), 2] [(1 : ℚ), 0] (fun x => x) =
        (rawWeights ([(1 : ℚ), 2].zip [(1 : ℚ), 0]) (fun x => x)).map
          (fun w => w / listMean (rawWeights ([(1 : ℚ), 2].zip [(1 : ℚ), 0]) (fun x => x))) ∧
      (reweight_by_group [(1 : ℚ), 2] [(1 : ℚ), 0] (fun x => x)).length = [(1 : ℚ), 2].length :=
  reweight_matches_partition_spec [(1 : ℚ), 2] [(1 : ℚ), 0] (fun x => x) (by decide)

/-- C9: for every input whose outcome labels are all 0 or 1, every sample weight
returned by `reweight_by_group` is (strictly) positive, hence non-negative: the
divisor `max(0.01, selection_rate)` is bounded below by `0.01`, so no division
by zero occurs. -/
theorem reweight_weights_pos {α K : Type*} [DecidableEq K]
    (resumes : List α) (labels : List ℚ) (pf : α → K)
    (h01 : ∀ l ∈ labels, l = 0 ∨ l = 1)
    (w : ℚ) (hw : w ∈ reweight_by_group resumes labels pf) : 0 < w := by
  rw [reweight_eq_normalized_raw] at hw
  obtain ⟨x, hx, rfl⟩ := List.mem_map.mp hw
  have hne : rawWeights (resumes.zip labels) pf ≠ [] := List.ne_nil_of_mem hx
  exact div_pos (rawWeights_pos _ _ x hx) (listMean_pos (rawWeights_pos _ _) hne)

theorem reweight_weights_pos_witness :
    (∀ l ∈ [(1 : ℚ), 0], l = 0 ∨ l = 1) ∧ (0 : ℚ) < 1 :=
  ⟨by norm_num,
    reweight_weights_pos [(1 : ℚ), 2] [(1 : ℚ), 0] (fun _ => (0 : ℕ)) (by norm_num) 1
      (by norm_num [reweight_by_group, reweightRawWeights, setdefaultAppend, dictGet,
        listMean, max_def])⟩

/-- C8 counterexample: `reweight_by_group` on zero-length inputs does not fail;
it silently returns the empty weight vector (in NumPy, `np.mean` of the empty
array is NaN with only a `RuntimeWarning`, and dividing the empty array by it is
again the empty array). -/
theorem reweight_empty_no_error :
    reweight_by_group ([] : List ℚ) ([] : List ℚ) (fun _ => (0 : ℕ)) = [] := rfl

/-- C8 amended: `reweight_by_group` invoked with zero-length inputs raises no
error at all; it returns the empty weight vector (a silently degenerate
result). -/
theorem reweight_empty_input {α K : Type*} [DecidableEq K]
    (resumes : List α) (labels : List ℚ) (pf : α → K)
    (h : resumes = [] ∨ labels = []) :
    reweight_by_group resumes labels pf = [] := by
  rcases h with h | h <;> subst h <;>
    simp [reweight_by_group, reweightRawWeights]

theorem reweight_empty_input_witness :
    reweight_by_group ([] : List ℚ) ([(1 : ℚ)]) (fun _ => (0 : ℕ)) = [] :=
  reweight_empty_input ([] : List ℚ) [(1 : ℚ)] (fun _ => (0 : ℕ)) (Or.inl rfl)

/-! ## The `app.py` call sites (claims C6 and C7) -/

/-- The names defined at the top level of the module `mitigation.py`. -/
def mitigationModuleDefs : List String := ["reweight_by_group", "isotonic_postprocess"]

/-- Python attribute lookup `mitigation.<name>` on the module namespace. -/
def moduleAttr (name : String) : Option String :=
  if name ∈ mitigationModuleDefs then some name else none

/-- Outcome of the `Run Analysis` handler in `app.py`, focused on its control
flow around the Bias Mitigation step: with no trials it only warns; otherwise it
evaluates `mitigation.apply_reweighing(...)`, whose attribute lookup either
succeeds (and the handler goes on to `save_run_result`, outcome `saved`) or
raises `AttributeError`, aborting the handler before the save line. -/
inductive AnalysisOutcome
  | noTrialsWarning
  | attributeError (missing : String)
  | saved
deriving DecidableEq

/-- The Bias-Mitigation-to-save tail of the `Run Analysis` handler. -/
def runAnalysis (ntrials : ℕ) : AnalysisOutcome :=
  if ntrials = 0 then .noTrialsWarning
  else
    match moduleAttr "apply_reweighing" with
    | some _ => .saved
    | none => .attributeError "apply_reweighing"

/-- C6: `mitigation.py` defines no `apply_reweighing`, so for every non-empty
trial log the Bias Mitigation step of `Run Analysis` raises `AttributeError`
and the `save_run_result` line is never reached. -/
theorem run_analysis_attribute_error (ntrials : ℕ) (h : ntrials ≠ 0) :
    "apply_reweighing" ∉ mitigationModuleDefs ∧
      runAnalysis ntrials = AnalysisOutcome.attributeError "apply_reweighing" ∧
      runAnalysis ntrials ≠ AnalysisOutcome.saved := by
  have hmem : "apply_reweighing" ∉ mitigationModuleDefs := by decide
  refine ⟨hmem, ?_, ?_⟩ <;> simp [runAnalysis, moduleAttr, h, hmem]

theorem run_analysis_attribute_error_witness :
    "apply_reweighing" ∉ mitigationModuleDefs ∧
      runAnalysis 1 = AnalysisOutcome.attributeError "apply_reweighing" ∧
      runAnalysis 1 ≠ AnalysisOutcome.saved :=
  run_analysis_attribute_error 1 (by decide)

/-- A trial record appended by the `Submit Guess` handler, with the resume kept
abstract. -/
structure Trial (R : Type*) where
  resume : R
  ai_score : ℚ
  persona_score : ℚ
  persona : String
  choice : ℕ
  correct : ℕ
  explanation : String

/-- The label vector `Run Analysis` feeds to `train_meta_classifier`:
`y = (df["persona"] != "AI Model").astype(int)`. -/
def metaLabels {R : Type*} (trials : List (Trial R)) : List ℕ :=
  trials.map (fun t => if t.persona ≠ "AI Model" then 1 else 0)

/-- C7: when every trial's persona name differs from `"AI Model"`, the label
vector passed to `train_meta_classifier` is identically 1 — a single-class
label vector, exactly the DegenerateLabels condition. -/
theorem meta_labels_single_class {R : Type*} (trials : List (Trial R))
    (h : ∀ t ∈ trials, t.persona ≠ "AI Model") :
    metaLabels trials = List.replicate trials.length 1 := by
  induction trials with
  | nil => simp [metaLabels]
  | cons t rest ih =>
    have ht : t.persona ≠ "AI Model" := h t (List.mem_cons_self t rest)
    simp only [metaLabels, List.map_cons, List.length_cons, List.replicate_succ, if_pos ht]
    exact congrArg (1 :: ·) (ih (fun u hu => h u (List.mem_cons_of_mem t hu)))

theorem meta_labels_single_class_witness :
    metaLabels [Trial.mk () (1 / 2) (3 / 4) "Halo Effect" 1 1 "",
        Trial.mk () (1 / 4) (1 / 2) "Strict Gatekeeper" 2 0 ""] =
      List.replicate 2 1 :=
  meta_labels_single_class _ (by simp)

/-! ## `isotonic_postprocess`

`mitigation.isotonic_postprocess(scores, labels)` fits
`sklearn.isotonic.IsotonicRegression(out_of_bounds='clip')` (default
`increasing=True`) on `(scores, labels)` and returns a closure applying
`ir.transform` elementwise.  The library fit is modelled here by its documented
algorithm: sort the training pairs lexicographically (`np.lexsort((y, X))`),
average the targets over duplicate scores (`_make_unique`, unit sample weights),
run the pool-adjacent-violators algorithm to obtain the non-decreasing fitted
values, and predict by piecewise-linear interpolation between the fitted points,
with out-of-range inputs clipped to the nearest boundary (`np.clip` followed by
`interp1d`; a single fitted point yields a constant function). -/

/-- Lexicographic order on (score, target) training pairs, primary key the
score: the sort order of `np.lexsort((y, X))`. -/
def lexLe (p q : ℚ × ℚ) : Prop := p.1 < q.1 ∨ (p.1 = q.1 ∧ p.2 ≤ q.2)

instance lexLe.decRel : DecidableRel lexLe := fun p q => by
  unfold lexLe; infer_instance

instance lexLe.total : IsTotal (ℚ × ℚ) lexLe where
  total p q := by
    rcases lt_trichotomy p.1 q.1 with h | h | h
    · exact Or.inl (Or.inl h)
    · rcases le_total p.2 q.2 with h2 | h2
      · exact Or.inl (Or.inr ⟨h, h2⟩)
      · exact Or.inr (Or.inr ⟨h.symm, h2⟩)
    · exact Or.inr (Or.inl h)

instance lexLe.trans : IsTrans (ℚ × ℚ) lexLe where
  trans a b c hab hbc := by
    rcases hab with h1 | ⟨e1, l1⟩
    · rcases hbc with h2 | ⟨e2, l2⟩
      · exact Or.inl (h1.trans h2)
      · exact Or.inl (e2 ▸ h1)
    · rcases hbc with h2 | ⟨e2, l2⟩
      · exact Or.inl (e1 ▸ h2)
      · exact Or.inr ⟨e1.trans e2, l1.trans l2⟩

/-- Sort the training pairs by (score, target). -/
def sortPairs (l : List (ℚ × ℚ)) : List (ℚ × ℚ) := List.insertionSort lexLe l

/-- `_make_unique`, running tail: collapse the already-seen run of pairs whose
score equals `x` (target sum `ysum` over `w` samples) against the remaining
sorted pairs, emitting one `(score, mean target, weight)` triple per run. -/
def makeUniqueAux (x ysum w : ℚ) : List (ℚ × ℚ) → List (ℚ × ℚ × ℚ)
  | [] => [(x, ysum / w, w)]
  | q :: rest =>
    if q.1 = x then makeUniqueAux x (ysum + q.2) (w + 1) rest
    else (x, ysum / w, w) :: makeUniqueAux q.1 q.2 1 rest

/-- `_make_unique` on the sorted pairs (unit sample weights). -/
def makeUnique : List (ℚ × ℚ) → List (ℚ × ℚ × ℚ)
  | [] => []
  | q :: rest => makeUniqueAux q.1 q.2 1 rest

/-- A block of adjacent points pooled by the pool-adjacent-violators algorithm:
weighted target sum, total weight, and number of points pooled. -/
structure Block where
  ysum : ℚ
  wsum : ℚ
  n : ℕ
deriving DecidableEq

/-- The fitted value of a pooled block: its weighted mean target. -/
def Block.mean (b : Block) : ℚ := b.ysum / b.wsum

/-- Push a new block onto the stack of pooled blocks (stored top-first),
merging while the block below has a strictly larger mean. -/
def mergeStep : List Block → Block → List Block
  | [], b => [b]
  | b₀ :: rest, b =>
    if b₀.mean ≤ b.mean then b :: b₀ :: rest
    else mergeStep rest ⟨b₀.ysum + b.ysum, b₀.wsum + b.wsum, b₀.n + b.n⟩

/-- Pool-adjacent-violators over the `(target mean, weight)` points, returning
the pooled blocks in left-to-right order. -/
def pavBlocks (pts : List (ℚ × ℚ)) : List Block :=
  (pts.foldl (fun st p => mergeStep st ⟨p.1 * p.2, p.2, 1⟩) []).reverse

/-- Expand the pooled blocks back to one fitted value per point. -/
def expandBlocks : List Block → List ℚ
  | [] => []
  | b :: rest => List.replicate b.n b.mean ++ expandBlocks rest

/-- A fitted isotonic model: the distinct training scores in increasing order
and the fitted value at each. -/
structure IsoModel where
  xs : List ℚ
  ys : List ℚ
deriving DecidableEq

/-- `IsotonicRegression.fit(scores, labels)`. -/
def isoFit (scores labels : List ℚ) : IsoModel :=
  let pts := makeUnique (sortPairs (scores.zip labels))
  { xs := pts.map (fun t => t.1),
    ys := expandBlocks (pavBlocks (pts.map (fun t => t.2))) }

/-- Piecewise-linear interpolation through the fitted points with clipping:
inputs at or below the first score take the first fitted value, inputs at or
beyond the last score take the last fitted value (`np.clip` composed with
`interp1d(kind='linear')`; a single point gives a constant function). -/
def interpPoints : List (ℚ × ℚ) → ℚ → ℚ
  | [], _ => 0
  | [p], _ => p.2
  | p :: q :: rest, t =>
    if t ≤ p.1 then p.2
    else if t ≤ q.1 then p.2 + (q.2 - p.2) * (t - p.1) / (q.1 - p.1)
    else interpPoints (q :: rest) t

/-- `ir.transform` on a single score. -/
def isoPredict (m : IsoModel) (t : ℚ) : ℚ := interpPoints (m.xs.zip m.ys) t

/-- The fit step of `isotonic_postprocess`, as the spec's `fit_calibration`:
`sklearn` rejects empty or length-mismatched training input in validation, and
otherwise the fit succeeds (no degeneracy check on the targets). -/
def fit_calibration (scores labels : List ℚ) : Option IsoModel :=
  if scores ≠ [] ∧ scores.length = labels.length then some (isoFit scores labels) else none

/-- `mitigation.isotonic_postprocess(scores, labels)`: the returned `transform`
closure maps `new_scores` elementwise through the fitted regression. -/
def isotonic_postprocess (scores labels : List ℚ) : Option (List ℚ → List ℚ) :=
  (fit_calibration scores labels).map (fun m new_scores => new_scores.map (isoPredict m))

theorem lexLe_fst_le {p q : ℚ × ℚ} (h : lexLe p q) : p.1 ≤ q.1 := by
  rcases h with h | ⟨h, _⟩
  · exact h.le
  · exact h.le

theorem makeUniqueAux_spec (l : List (ℚ × ℚ)) :
    ∀ x s w : ℚ, 0 < w → (∀ p ∈ l, x ≤ p.1) → l.Pairwise lexLe →
      (∃ y₀ w₀ tl, makeUniqueAux x s w l = (x, y₀, w₀) :: tl) ∧
        List.Sorted (· < ·) ((makeUniqueAux x s w l).map (fun t => t.1)) ∧
        (∀ t ∈ makeUniqueAux x s w l, 0 < t.2.2) ∧
        (∀ t ∈ makeUniqueAux x s w l, t.1 = x ∨ t.1 ∈ l.map (fun p => p.1)) := by
  induction l with
  | nil =>
    intro x s w hw _ _
    exact ⟨⟨s / w, w, [], rfl⟩, by simp [makeUniqueAux], by simpa [makeUniqueAux] using hw,
      by simp [makeUniqueAux]⟩
  | cons q rest ih =>
    intro x s w hw hx hp
    have hrest_ge_q : ∀ p ∈ rest, q.1 ≤ p.1 :=
      fun p hpm => lexLe_fst_le (List.rel_of_pairwise_cons hp hpm)
    by_cases hq : q.1 = x
    · have hx' : ∀ p ∈ rest, x ≤ p.1 := fun p hpm => hq ▸ hrest_ge_q p hpm
      have H := ih x (s + q.2) (w + 1) (by linarith) hx' hp.of_cons
      have hout : makeUniqueAux x s w (q :: rest) = makeUniqueAux x (s + q.2) (w + 1) rest := by
        simp [makeUniqueAux, hq]
      rw [hout]
      refine ⟨H.1, H.2.1, H.2.2.1, fun t ht => ?_⟩
      rcases H.2.2.2 t ht with h | h
      · exact Or.inl h
      · exact Or.inr (by simp only [List.map_cons]; exact List.mem_cons_of_mem _ h)
    · have hxq : x < q.1 := lt_of_le_of_ne (hx q (List.mem_cons_self q rest)) (Ne.symm hq)
      have H := ih q.1 q.2 1 one_pos hrest_ge_q hp.of_cons
      obtain ⟨⟨y₀, w₀, tl, heq⟩, hsorted, hwpos, hmem⟩ := H
      have hout : makeUniqueAux x s w (q :: rest) =
          (x, s / w, w) :: makeUniqueAux q.1 q.2 1 rest := by
        simp [makeUniqueAux, hq]
      rw [hout]
      have hall : ∀ z ∈ (makeUniqueAux q.1 q.2 1 rest).map (fun t => t.1), x < z := by
        intro z hz
        obtain ⟨t, ht, rfl⟩ := List.mem_map.mp hz
        rcases hmem t ht with h | h
        · exact h ▸ hxq
        · obtain ⟨p, hpm, hpe⟩ := List.mem_map.mp h
          exact hpe ▸ lt_of_lt_of_le hxq (hrest_ge_q p hpm)
      refine ⟨⟨s / w, w, _, rfl⟩, ?_, ?_, ?_⟩
      · rw [List.map_cons]
        exact List.sorted_cons.mpr ⟨hall, hsorted⟩
      · intro t ht
        rcases List.mem_cons.mp ht with rfl | ht'
        · exact hw
        · exact hwpos t ht'
      · intro t ht
        rcases List.mem_cons.mp ht with rfl | ht'
        · exact Or.inl rfl
        · rcases hmem t ht' with h | h
          · exact Or.inr (by simp [h])
          · exact Or.inr (by simp only [List.map_cons]; exact List.mem_cons_of_mem _ h)

/-- Structure of `makeUnique` on a lexicographically sorted pair list: the
emitted scores are strictly increasing, the emitted weights positive, and every
emitted score is a score of the input. -/
theorem makeUnique_spec (l : List (ℚ × ℚ)) (hp : l.Pairwise lexLe) :
    List.Sorted (· < ·) ((makeUnique l).map (fun t => t.1)) ∧
      (∀ t ∈ makeUnique l, 0 < t.2.2) ∧
      (∀ t ∈ makeUnique l, t.1 ∈ l.map (fun p => p.1)) := by
  cases l with
  | nil => simp [makeUnique]
  | cons q rest =>
    have hrest_ge_q : ∀ p ∈ rest, q.1 ≤ p.1 :=
      fun p hpm => lexLe_fst_le (List.rel_of_pairwise_cons hp hpm)
    have H := makeUniqueAux_spec rest q.1 q.2 1 one_pos hrest_ge_q hp.of_cons
    refine ⟨H.2.1, H.2.2.1, fun t ht => ?_⟩
    rcases H.2.2.2 t ht with h | h
    · simp [makeUnique, h]
    · simp only [List.map_cons]
      exact List.mem_cons_of_mem _ h

/-- Non-decreasing fitted values between pooled blocks. -/
def blockLe (a b : Block) : Prop := a.mean ≤ b.mean

instance blockLe.instTrans : IsTrans Block blockLe where
  trans _ _ _ := le_trans

/-- Total number of points pooled in a block stack. -/
def blocksCount (bs : List Block) : ℕ := (bs.map (fun b => b.n)).sum

theorem blocksCount_cons (b : Block) (bs : List Block) :
    blocksCount (b :: bs) = b.n + blocksCount bs := by
  simp [blocksCount]

theorem mergeStep_spec (st : List Block) :
    ∀ b : Block, 0 < b.wsum → (∀ c ∈ st, 0 < c.wsum) →
      List.Chain' (fun a c => blockLe c a) st →
      (∀ c ∈ mergeStep st b, 0 < c.wsum) ∧
        List.Chain' (fun a c => blockLe c a) (mergeStep st b) ∧
        blocksCount (mergeStep st b) = blocksCount st + b.n := by
  induction st with
  | nil =>
    intro b hb _ _
    refine ⟨?_, ?_, ?_⟩ <;> simp [mergeStep, blocksCount, hb]
  | cons b₀ rest ih =>
    intro b hb hpos hchain
    by_cases hle : b₀.mean ≤ b.mean
    · rw [mergeStep, if_pos hle]
      refine ⟨?_, ?_, ?_⟩
      · intro c hc
        rcases List.mem_cons.mp hc with rfl | hc'
        · exact hb
        · exact hpos c hc'
      · exact List.chain'_cons.mpr ⟨hle, hchain⟩
      · simp [blocksCount_cons]
        omega
    · rw [mergeStep, if_neg hle]
      have hb₀ : 0 < b₀.wsum := hpos b₀ (List.mem_cons_self b₀ rest)
      have hcomb : (0 : ℚ) < b₀.wsum + b.wsum := by linarith
      have H := ih ⟨b₀.ysum + b.ysum, b₀.wsum + b.wsum, b₀.n + b.n⟩ hcomb
        (fun c hc => hpos c (List.mem_cons_of_mem _ hc)) hchain.tail
      refine ⟨H.1, H.2.1, ?_⟩
      rw [H.2.2, blocksCount_cons]
      show blocksCount rest + (b₀.n + b.n) = b₀.n + blocksCount rest + b.n
      omega

theorem pavStack_spec (pts : List (ℚ × ℚ)) :
    ∀ st : List Block, (∀ p ∈ pts, 0 < p.2) → (∀ c ∈ st, 0 < c.wsum) →
      List.Chain' (fun a c => blockLe c a) st →
      (∀ c ∈ pts.foldl (fun st p => mergeStep st ⟨p.1 * p.2, p.2, 1⟩) st, 0 < c.wsum) ∧
        List.Chain' (fun a c => blockLe c a)
          (pts.foldl (fun st p => mergeStep st ⟨p.1 * p.2, p.2, 1⟩) st) ∧
        blocksCount (pts.foldl (fun st p => mergeStep st ⟨p.1 * p.2, p.2, 1⟩) st) =
          blocksCount st + pts.length := by
  induction pts with
  | nil => intro st _ hpos hchain; exact ⟨hpos, hchain, by simp⟩
  | cons p rest ih =>
    intro st hw hpos hchain
    have hp : (0 : ℚ) < p.2 := hw p (List.mem_cons_self p rest)
    have M := mergeStep_spec st ⟨p.1 * p.2, p.2, 1⟩ hp hpos hchain
    have H := ih (mergeStep st ⟨p.1 * p.2, p.2, 1⟩)
      (fun q hq => hw q (List.mem_cons_of_mem _ hq)) M.1 M.2.1
    refine ⟨H.1, H.2.1, ?_⟩
    rw [List.foldl_cons, H.2.2, M.2.2]
    show blocksCount st + 1 + rest.length = blocksCount st + (p :: rest).length
    simp only [List.length_cons]
    omega

/-- The pooled blocks of the pool-adjacent-violators fit: positive weights,
non-decreasing means, and one pooled point per input point. -/
theorem pavBlocks_spec (pts : List (ℚ × ℚ)) (hw : ∀ p ∈ pts, 0 < p.2) :
    (∀ c ∈ pavBlocks pts, 0 < c.wsum) ∧
      (pavBlocks pts).Pairwise blockLe ∧
      blocksCount (pavBlocks pts) = pts.length := by
  have H := pavStack_spec pts [] hw (by simp) (by simp)
  refine ⟨?_, ?_, ?_⟩
  · intro c hc
    exact H.1 c (List.mem_reverse.mp hc)
  · have hch : List.Chain' blockLe (pavBlocks pts) := by
      rw [pavBlocks, List.chain'_reverse]
      exact H.2.1
    exact List.chain'_iff_pairwise.mp hch
  · have : blocksCount (pavBlocks pts) =
        blocksCount (pts.foldl (fun st p => mergeStep st ⟨p.1 * p.2, p.2, 1⟩) []) := by
      simp [pavBlocks, blocksCount, List.sum_reverse]
    rw [this, H.2.2]
    simp [blocksCount]

theorem expandBlocks_length (bs : List Block) : (expandBlocks bs).length = blocksCount bs := by
  induction bs with
  | nil => simp [expandBlocks, blocksCount]
  | cons b rest ih => simp [expandBlocks, blocksCount_cons, ih]

theorem mem_expandBlocks {bs : List Block} {y : ℚ} (h : y ∈ expandBlocks bs) :
    ∃ b ∈ bs, y = b.mean := by
  induction bs with
  | nil => simp [expandBlocks] at h
  | cons b rest ih =>
    rcases List.mem_append.mp h with h' | h'
    · exact ⟨b, List.mem_cons_self b rest, (List.eq_of_mem_replicate h')⟩
    · obtain ⟨b', hb', hy⟩ := ih h'
      exact ⟨b', List.mem_cons_of_mem _ hb', hy⟩

theorem sorted_le_replicate (n : ℕ) (a : ℚ) : List.Sorted (· ≤ ·) (List.replicate n a) := by
  induction n with
  | zero => simp
  | succ k ih =>
    rw [List.replicate_succ]
    exact List.sorted_cons.mpr ⟨fun b hb => (List.eq_of_mem_replicate hb).ge, ih⟩

theorem expandBlocks_sorted {bs : List Block} (h : bs.Pairwise blockLe) :
    List.Sorted (· ≤ ·) (expandBlocks bs) := by
  induction bs with
  | nil => simp [expandBlocks]
  | cons b rest ih =>
    rw [expandBlocks]
    rw [List.Sorted, List.pairwise_append]
    refine ⟨sorted_le_replicate b.n b.mean, ih h.of_cons, ?_⟩
    intro x hx y hy
    obtain ⟨b', hb', hy'⟩ := mem_expandBlocks hy
    rw [List.eq_of_mem_replicate hx, hy']
    exact List.rel_of_pairwise_cons h hb'

/-- Sortedness of the fitted interpolation points: strictly increasing scores,
non-decreasing fitted values. -/
def ptsSorted (pts : List (ℚ × ℚ)) : Prop :=
  pts.Pairwise (fun p q => p.1 < q.1 ∧ p.2 ≤ q.2)

theorem ptsSorted_zip {xs ys : List ℚ} (hx : List.Sorted (· < ·) xs)
    (hy : List.Sorted (· ≤ ·) ys) : ptsSorted (xs.zip ys) := by
  induction xs generalizing ys with
  | nil => simp [ptsSorted]
  | cons a xs ih =>
    cases ys with
    | nil => simp [ptsSorted]
    | cons b ys =>
      rw [List.zip_cons_cons, ptsSorted]
      refine List.pairwise_cons.mpr ⟨?_, ih hx.of_cons hy.of_cons⟩
      intro pq hpq
      obtain ⟨u, v⟩ := pq
      have hm := List.of_mem_zip hpq
      exact ⟨List.rel_of_sorted_cons hx u hm.1, List.rel_of_sorted_cons hy v hm.2⟩

theorem interpPoints_single (p : ℚ × ℚ) (t : ℚ) : interpPoints [p] t = p.2 := rfl

theorem interpPoints_cons₂ (p q : ℚ × ℚ) (rest : List (ℚ × ℚ)) (t : ℚ) :
    interpPoints (p :: q :: rest) t =
      if t ≤ p.1 then p.2
      else if t ≤ q.1 then p.2 + (q.2 - p.2) * (t - p.1) / (q.1 - p.1)
      else interpPoints (q :: rest) t := rfl

/-- Interpolation through sorted points never goes below the first fitted
value. -/
theorem interp_lower_bound (rest : List (ℚ × ℚ)) :
    ∀ p : ℚ × ℚ, ptsSorted (p :: rest) → ∀ t : ℚ, p.2 ≤ interpPoints (p :: rest) t := by
  induction rest with
  | nil => intro p _ t; rw [interpPoints_single]
  | cons q rest' ih =>
    intro p hs t
    have hpq : p.1 < q.1 ∧ p.2 ≤ q.2 :=
      List.rel_of_pairwise_cons hs (List.mem_cons_self q rest')
    rw [interpPoints_cons₂]
    by_cases h1 : t ≤ p.1
    · rw [if_pos h1]
    · rw [if_neg h1]
      by_cases h2 : t ≤ q.1
      · rw [if_pos h2]
        have hnum : (0 : ℚ) ≤ (q.2 - p.2) * (t - p.1) / (q.1 - p.1) := by
          apply div_nonneg
          · apply mul_nonneg (by linarith [hpq.2])
            linarith [not_le.mp h1]
          · linarith [hpq.1]
        linarith
      · rw [if_neg h2]
        exact le_trans hpq.2 (ih q hs.of_cons t)

/-- Interpolation through sorted points is monotone non-decreasing in the
query. -/
theorem interp_mono (pts : List (ℚ × ℚ)) (hs : ptsSorted pts) (s1 s2 : ℚ) (h12 : s1 ≤ s2) :
    interpPoints pts s1 ≤ interpPoints pts s2 := by
  induction pts with
  | nil => simp [interpPoints]
  | cons p rest ih =>
    cases rest with
    | nil => rw [interpPoints_single, interpPoints_single]
    | cons q rest' =>
      have hpq : p.1 < q.1 ∧ p.2 ≤ q.2 :=
        List.rel_of_pairwise_cons hs (List.mem_cons_self q rest')
      have hc : (0 : ℚ) < q.1 - p.1 := by linarith [hpq.1]
      by_cases hA : s1 ≤ p.1
      · have hL : interpPoints (p :: q :: rest') s1 = p.2 := by
          rw [interpPoints_cons₂, if_pos hA]
        rw [hL]
        exact interp_lower_bound (q :: rest') p hs s2
      · have hA2 : ¬s2 ≤ p.1 := fun h => hA (h12.trans h)
        by_cases hB : s2 ≤ q.1
        · have hB1 : s1 ≤ q.1 := h12.trans hB
          rw [interpPoints_cons₂, interpPoints_cons₂, if_neg hA, if_neg hA2,
            if_pos hB1, if_pos hB]
          have hstep : (q.2 - p.2) * (s1 - p.1) / (q.1 - p.1) ≤
              (q.2 - p.2) * (s2 - p.1) / (q.1 - p.1) := by
            rw [div_le_div_iff_of_pos_right hc]
            apply mul_le_mul_of_nonneg_left (by linarith) (by linarith [hpq.2])
          linarith
        · by_cases hC : s1 ≤ q.1
          · have hL : interpPoints (p :: q :: rest') s1 =
                p.2 + (q.2 - p.2) * (s1 - p.1) / (q.1 - p.1) := by
              rw [interpPoints_cons₂, if_neg hA, if_pos hC]
            have hub : interpPoints (p :: q :: rest') s1 ≤ q.2 := by
              rw [hL]
              have h1 : (q.2 - p.2) * (s1 - p.1) / (q.1 - p.1) ≤
                  (q.2 - p.2) * (q.1 - p.1) / (q.1 - p.1) := by
                rw [div_le_div_iff_of_pos_right hc]
                apply mul_le_mul_of_nonneg_left (by linarith) (by linarith [hpq.2])
              have h2 : (q.2 - p.2) * (q.1 - p.1) / (q.1 - p.1) = q.2 - p.2 :=
                mul_div_cancel_right₀ _ (ne_of_gt hc)
              linarith
            have hR : interpPoints (p :: q :: rest') s2 = interpPoints (q :: rest') s2 := by
              rw [interpPoints_cons₂, if_neg hA2, if_neg hB]
            rw [hR]
            exact le_trans hub (interp_lower_bound rest' q hs.of_cons s2)
          · rw [interpPoints_cons₂, interpPoints_cons₂, if_neg hA, if_neg hA2,
              if_neg hB, if_neg hC]
            exact ih hs.of_cons

/-- A query at or below every fitted score is clipped: the interpolated value
does not depend on which such query is used. -/
theorem interp_below (pts : List (ℚ × ℚ)) (t t' : ℚ)
    (h : ∀ q ∈ pts, t ≤ q.1) (h' : ∀ q ∈ pts, t' ≤ q.1) :
    interpPoints pts t = interpPoints pts t' := by
  cases pts with
  | nil => rfl
  | cons p rest =>
    cases rest with
    | nil => rfl
    | cons q rest' =>
      rw [interpPoints_cons₂, interpPoints_cons₂,
        if_pos (h p (List.mem_cons_self p (q :: rest'))),
        if_pos (h' p (List.mem_cons_self p (q :: rest')))]

/-- The last fitted value of the interpolation points. -/
def lastY (pts : List (ℚ × ℚ)) : ℚ := ((pts.getLast?).map Prod.snd).getD 0

/-- A query at or beyond every fitted score is clipped to the last fitted
value. -/
theorem interp_top (pts : List (ℚ × ℚ)) (hs : ptsSorted pts) (t : ℚ)
    (h : ∀ q ∈ pts, q.1 ≤ t) (hne : pts ≠ []) :
    interpPoints pts t = lastY pts := by
  induction pts with
  | nil => exact absurd rfl hne
  | cons p rest ih =>
    cases rest with
    | nil => rw [interpPoints_single]; rfl
    | cons q rest' =>
      have hpq : p.1 < q.1 ∧ p.2 ≤ q.2 :=
        List.rel_of_pairwise_cons hs (List.mem_cons_self q rest')
      have hqt : q.1 ≤ t := h q (List.mem_cons_of_mem _ (List.mem_cons_self q rest'))
      have hlast : lastY (p :: q :: rest') = lastY (q :: rest') := by
        simp [lastY, List.getLast?_cons_cons]
      rw [interpPoints_cons₂, if_neg (not_le.mpr (lt_of_lt_of_le hpq.1 hqt)), hlast]
      by_cases hb : t ≤ q.1
      · have ht : t = q.1 := le_antisymm hb hqt
        cases rest' with
        | nil =>
          rw [if_pos hb]
          have hc : q.1 - p.1 ≠ 0 := by linarith [hpq.1]
          have : (q.2 - p.2) * (t - p.1) / (q.1 - p.1) = q.2 - p.2 := by
            rw [ht]
            exact mul_div_cancel_right₀ _ hc
          rw [this]
          show p.2 + (q.2 - p.2) = lastY [q]
          simp [lastY]
        | cons r rest'' =>
          exfalso
          have hqr : q.1 < r.1 :=
            (List.rel_of_pairwise_cons hs.of_cons (List.mem_cons_self r rest'')).1
          have hrt : r.1 ≤ t :=
            h r (List.mem_cons_of_mem _ (List.mem_cons_of_mem _ (List.mem_cons_self r rest'')))
          rw [ht] at hrt
          linarith
      · rw [if_neg hb]
        exact ih hs.of_cons (fun u hu => h u (List.mem_cons_of_mem _ hu)) (by simp)

theorem makeUniqueAux_ne_nil (l : List (ℚ × ℚ)) : ∀ x s w : ℚ, makeUniqueAux x s w l ≠ [] := by
  induction l with
  | nil => intro x s w; simp [makeUniqueAux]
  | cons q rest ih =>
    intro x s w
    by_cases hq : q.1 = x
    · simpa [makeUniqueAux, hq] using ih x (s + q.2) (w + 1)
    · simp [makeUniqueAux, hq]

/-- Structure of the fitted model: the interpolation points are sorted
(strictly increasing scores, non-decreasing fitted values), every fitted score
is a training score, and there is one fitted value per fitted score. -/
theorem isoFit_spec (scores labels : List ℚ) :
    ptsSorted ((isoFit scores labels).xs.zip (isoFit scores labels).ys) ∧
      (∀ x ∈ (isoFit scores labels).xs, x ∈ scores) ∧
      (isoFit scores labels).xs.length = (isoFit scores labels).ys.length := by
  have hpair : (sortPairs (scores.zip labels)).Pairwise lexLe :=
    List.sorted_insertionSort lexLe (scores.zip labels)
  have MU := makeUnique_spec (sortPairs (scores.zip labels)) hpair
  have hxs : (isoFit scores labels).xs =
      (makeUnique (sortPairs (scores.zip labels))).map (fun t => t.1) := rfl
  have hys : (isoFit scores labels).ys =
      expandBlocks (pavBlocks
        ((makeUnique (sortPairs (scores.zip labels))).map (fun t => t.2))) := rfl
  have hwpos : ∀ p ∈ (makeUnique (sortPairs (scores.zip labels))).map (fun t => t.2),
      0 < p.2 := by
    intro p hp
    obtain ⟨t, ht, rfl⟩ := List.mem_map.mp hp
    exact MU.2.1 t ht
  have PS := pavBlocks_spec _ hwpos
  refine ⟨?_, ?_, ?_⟩
  · rw [hxs, hys]
    exact ptsSorted_zip MU.1 (expandBlocks_sorted PS.2.1)
  · intro x hx
    rw [hxs] at hx
    obtain ⟨t, ht, rfl⟩ := List.mem_map.mp hx
    obtain ⟨p, hpm, hpe⟩ := List.mem_map.mp (MU.2.2 t ht)
    have hp2 : p ∈ scores.zip labels :=
      (List.perm_insertionSort lexLe (scores.zip labels)).mem_iff.mp hpm
    exact hpe ▸ (List.of_mem_zip hp2).1
  · rw [hxs, hys, List.length_map, expandBlocks_length, PS.2.2, List.length_map]

/-- On valid training input the fitted model is non-degenerate: at least one
fitted point. -/
theorem isoFit_ne_nil {scores labels : List ℚ} (hne : scores ≠ [])
    (hlen : scores.length = labels.length) :
    (isoFit scores labels).xs ≠ [] ∧ (isoFit scores labels).ys ≠ [] := by
  have hzip : scores.zip labels ≠ [] := by
    intro h0
    have := congrArg List.length h0
    rw [List.length_zip, ← hlen, min_self] at this
    exact hne (List.length_eq_zero.mp this)
  have hsorted : sortPairs (scores.zip labels) ≠ [] := by
    intro h0
    have := (List.perm_insertionSort lexLe (scores.zip labels)).length_eq
    rw [sortPairs] at h0
    rw [h0] at this
    exact hzip (List.length_eq_zero.mp this.symm)
  have hxs : (isoFit scores labels).xs ≠ [] := by
    have hmu : makeUnique (sortPairs (scores.zip labels)) ≠ [] := by
      cases hq : sortPairs (scores.zip labels) with
      | nil => exact absurd hq hsorted
      | cons q rest => rw [makeUnique]; exact makeUniqueAux_ne_nil rest q.1 q.2 1
    show (makeUnique (sortPairs (scores.zip labels))).map (fun t => t.1) ≠ []
    exact fun h0 => hmu (List.map_eq_nil_iff.mp h0)
  refine ⟨hxs, ?_⟩
  intro h0
  have := (isoFit_spec scores labels).2.2
  rw [h0] at this
  exact hxs (List.length_eq_zero.mp this)

/-- C4: for every training set accepted by `fit_calibration`
(`isotonic_postprocess`), the fitted transform is monotone non-decreasing:
`s1 < s2` implies `transform(s1) ≤ transform(s2)`. -/
theorem calibration_monotone (scores labels : List ℚ) (m : IsoModel)
    (h : fit_calibration scores labels = some m) (s1 s2 : ℚ) (h12 : s1 < s2) :
    isoPredict m s1 ≤ isoPredict m s2 := by
  have hm : m = isoFit scores labels := by
    unfold fit_calibration at h
    split at h
    · exact (Option.some.inj h).symm
    · exact absurd h (by simp)
  subst hm
  exact interp_mono _ (isoFit_spec scores labels).1 s1 s2 h12.le

theorem calibration_monotone_witness :
    isoPredict (isoFit [0, 1] [0, 1]) 0 ≤ isoPredict (isoFit [0, 1] [0, 1]) 1 :=
  calibration_monotone [0, 1] [0, 1] (isoFit [0, 1] [0, 1])
    (by simp [fit_calibration]) 0 1 (by norm_num)

/-- C5: for every fitted calibration transform, any input below every training
score evaluates to the transform's value at the training minimum, and any input
above every training score evaluates to its value at the training maximum
(clipping, never extrapolation). -/
theorem calibration_clips (scores labels : List ℚ) (m : IsoModel)
    (h : fit_calibration scores labels = some m) (lo hi t : ℚ)
    (hlo : ∀ x ∈ scores, lo ≤ x) (hhi : ∀ x ∈ scores, x ≤ hi) :
    (t < lo → isoPredict m t = isoPredict m lo) ∧
      (hi < t → isoPredict m t = isoPredict m hi) := by
  have hcond : scores ≠ [] ∧ scores.length = labels.length := by
    unfold fit_calibration at h
    split at h
    · assumption
    · exact absurd h (by simp)
  have hm : m = isoFit scores labels := by
    unfold fit_calibration at h
    rw [if_pos hcond] at h
    exact (Option.some.inj h).symm
  subst hm
  have S := isoFit_spec scores labels
  have hmem : ∀ q ∈ (isoFit scores labels).xs.zip (isoFit scores labels).ys,
      q.1 ∈ scores := by
    intro q hq
    exact S.2.1 q.1 (List.of_mem_zip hq).1
  constructor
  · intro hlt
    unfold isoPredict
    apply interp_below
    · exact fun q hq => le_of_lt (lt_of_lt_of_le hlt (hlo q.1 (hmem q hq)))
    · exact fun q hq => hlo q.1 (hmem q hq)
  · intro hlt
    have hne := isoFit_ne_nil hcond.1 hcond.2
    have hzipne : (isoFit scores labels).xs.zip (isoFit scores labels).ys ≠ [] := by
      intro h0
      have := congrArg List.length h0
      rw [List.length_zip, ← S.2.2, min_self] at this
      exact hne.1 (List.length_eq_zero.mp this)
    unfold isoPredict
    rw [interp_top _ S.1 t (fun q hq => le_of_lt (lt_of_le_of_lt (hhi q.1 (hmem q hq)) hlt))
        hzipne,
      interp_top _ S.1 hi (fun q hq => hhi q.1 (hmem q hq)) hzipne]

theorem calibration_clips_witness :
    isoPredict (isoFit [0, 1] [0, 1]) 2 = isoPredict (isoFit [0, 1] [0, 1]) 1 :=
  (calibration_clips [0, 1] [0, 1] (isoFit [0, 1] [0, 1]) (by simp [fit_calibration])
    0 1 2 (by norm_num) (by norm_num)).2 (by norm_num)

theorem makeUniqueAux_const (c : ℚ) (l : List (ℚ × ℚ)) :
    ∀ x s w : ℚ, 0 < w → s = c * w → (∀ q ∈ l, q.2 = c) →
      ∀ t ∈ makeUniqueAux x s w l, t.2.1 = c := by
  induction l with
  | nil =>
    intro x s w hw hs _ t ht
    simp only [makeUniqueAux, List.mem_singleton] at ht
    subst ht
    show s / w = c
    rw [hs, mul_div_cancel_right₀ _ (ne_of_gt hw)]
  | cons q rest ih =>
    intro x s w hw hs hc t ht
    by_cases hq : q.1 = x
    · rw [show makeUniqueAux x s w (q :: rest) = makeUniqueAux x (s + q.2) (w + 1) rest from by
        simp [makeUniqueAux, hq]] at ht
      refine ih x (s + q.2) (w + 1) (by linarith) ?_
        (fun u hu => hc u (List.mem_cons_of_mem _ hu)) t ht
      rw [hs, hc q (List.mem_cons_self q rest)]
      ring
    · rw [show makeUniqueAux x s w (q :: rest) =
          (x, s / w, w) :: makeUniqueAux q.1 q.2 1 rest from by simp [makeUniqueAux, hq]] at ht
      rcases List.mem_cons.mp ht with rfl | ht'
      · show s / w = c
        rw [hs, mul_div_cancel_right₀ _ (ne_of_gt hw)]
      · refine ih q.1 q.2 1 one_pos ?_ (fun u hu => hc u (List.mem_cons_of_mem _ hu)) t ht'
        rw [hc q (List.mem_cons_self q rest)]
        ring

theorem makeUnique_const (c : ℚ) (l : List (ℚ × ℚ)) (hc : ∀ q ∈ l, q.2 = c) :
    ∀ t ∈ makeUnique l, t.2.1 = c := by
  cases l with
  | nil => simp [makeUnique]
  | cons q rest =>
    refine makeUniqueAux_const c rest q.1 q.2 1 one_pos ?_
      (fun u hu => hc u (List.mem_cons_of_mem _ hu))
    rw [hc q (List.mem_cons_self q rest)]
    ring

theorem mergeStep_const (c : ℚ) (st : List Block) :
    ∀ b : Block, b.ysum = c * b.wsum → (∀ d ∈ st, d.ysum = c * d.wsum) →
      ∀ d ∈ mergeStep st b, d.ysum = c * d.wsum := by
  induction st with
  | nil =>
    intro b hb _ d hd
    simp only [mergeStep, List.mem_singleton] at hd
    subst hd
    exact hb
  | cons b₀ rest ih =>
    intro b hb hst d hd
    by_cases hle : b₀.mean ≤ b.mean
    · rw [mergeStep, if_pos hle] at hd
      rcases List.mem_cons.mp hd with rfl | hd'
      · exact hb
      · exact hst d hd'
    · rw [mergeStep, if_neg hle] at hd
      refine ih _ ?_ (fun e he => hst e (List.mem_cons_of_mem _ he)) d hd
      show b₀.ysum + b.ysum = c * (b₀.wsum + b.wsum)
      rw [hst b₀ (List.mem_cons_self b₀ rest), hb]
      ring

theorem pavFold_const (c : ℚ) (pts : List (ℚ × ℚ)) :
    ∀ st : List Block, (∀ p ∈ pts, p.1 = c) → (∀ d ∈ st, d.ysum = c * d.wsum) →
      ∀ d ∈ pts.foldl (fun st p => mergeStep st ⟨p.1 * p.2, p.2, 1⟩) st,
        d.ysum = c * d.wsum := by
  induction pts with
  | nil => intro st _ hst; simpa using hst
  | cons p rest ih =>
    intro st hc hst
    rw [List.foldl_cons]
    refine ih _ (fun q hq => hc q (List.mem_cons_of_mem _ hq)) ?_
    refine mergeStep_const c st ⟨p.1 * p.2, p.2, 1⟩ ?_ hst
    show p.1 * p.2 = c * p.2
    rw [hc p (List.mem_cons_self p rest)]

theorem interp_const (c : ℚ) (pts : List (ℚ × ℚ)) (hc : ∀ p ∈ pts, p.2 = c)
    (hne : pts ≠ []) (t : ℚ) : interpPoints pts t = c := by
  induction pts with
  | nil => exact absurd rfl hne
  | cons p rest ih =>
    cases rest with
    | nil =>
      rw [interpPoints_single]
      exact hc p (List.mem_cons_self p [])
    | cons q rest' =>
      have hp := hc p (List.mem_cons_self p (q :: rest'))
      have hq := hc q (List.mem_cons_of_mem _ (List.mem_cons_self q rest'))
      rw [interpPoints_cons₂]
      split_ifs with h1 h2
      · exact hp
      · rw [hp, hq]
        simp
      · exact ih (fun u hu => hc u (List.mem_cons_of_mem _ hu)) (by simp)

/-- C2 counterexample: `isotonic_postprocess` invoked with a target sequence
with fewer than two distinct values (`labels = [1, 1]`) does not fail: it
returns a fitted transform. -/
theorem isotonic_no_degenerate_check :
    (isotonic_postprocess [0, 1] [1, 1]).isSome = true := by
  simp [isotonic_postprocess, fit_calibration]

/-- C2 amended: neither `isotonic_postprocess` nor the underlying library fit
checks for degenerate targets: on any valid-shape training input whose targets
all equal `c`, the fit succeeds and the returned transform is constantly `c`
(no DegenerateTarget error exists anywhere in the code). -/
theorem isotonic_constant_target (scores labels : List ℚ) (c : ℚ)
    (hne : scores ≠ []) (hlen : scores.length = labels.length)
    (hc : ∀ l ∈ labels, l = c) :
    fit_calibration scores labels = some (isoFit scores labels) ∧
      ∀ t : ℚ, isoPredict (isoFit scores labels) t = c := by
  refine ⟨by rw [fit_calibration, if_pos ⟨hne, hlen⟩], ?_⟩
  intro t
  have hcsnd : ∀ q ∈ sortPairs (scores.zip labels), q.2 = c := by
    intro q hq
    have hq2 : q ∈ scores.zip labels :=
      (List.perm_insertionSort lexLe (scores.zip labels)).mem_iff.mp hq
    exact hc q.2 (List.of_mem_zip hq2).2
  have hys : ∀ y ∈ (isoFit scores labels).ys, y = c := by
    intro y hy
    have hy' : y ∈ expandBlocks (pavBlocks
        ((makeUnique (sortPairs (scores.zip labels))).map (fun t => t.2))) := hy
    obtain ⟨b, hb, rfl⟩ := mem_expandBlocks hy'
    have hfst : ∀ p ∈ (makeUnique (sortPairs (scores.zip labels))).map (fun t => t.2),
        p.1 = c := by
      intro p hp
      obtain ⟨u, hu, rfl⟩ := List.mem_map.mp hp
      exact makeUnique_const c _ hcsnd u hu
    have hconst : b.ysum = c * b.wsum :=
      pavFold_const c _ [] hfst (by simp) b (List.mem_reverse.mp hb)
    have hwpos : ∀ p ∈ (makeUnique (sortPairs (scores.zip labels))).map (fun t => t.2),
        0 < p.2 := by
      intro p hp
      obtain ⟨u, hu, rfl⟩ := List.mem_map.mp hp
      exact (makeUnique_spec (sortPairs (scores.zip labels))
        (List.sorted_insertionSort lexLe (scores.zip labels))).2.1 u hu
    have hbw : 0 < b.wsum := (pavBlocks_spec _ hwpos).1 b hb
    show b.mean = c
    rw [Block.mean, hconst, mul_div_cancel_right₀ _ (ne_of_gt hbw)]
  have S := isoFit_spec scores labels
  have hnn := isoFit_ne_nil hne hlen
  have hzipne : (isoFit scores labels).xs.zip (isoFit scores labels).ys ≠ [] := by
    intro h0
    have := congrArg List.length h0
    rw [List.length_zip, ← S.2.2, min_self] at this
    exact hnn.1 (List.length_eq_zero.mp this)
  unfold isoPredict
  refine interp_const c _ ?_ hzipne t
  intro p hp
  exact hys p.2 (List.of_mem_zip hp).2

theorem isotonic_constant_target_witness :
    fit_calibration [0, 1] [1, 1] = some (isoFit [0, 1] [1, 1]) ∧
      isoPredict (isoFit [0, 1] [1, 1]) (1 / 2) = 1 :=
  ⟨(isotonic_constant_target [0, 1] [1, 1] 1 (by simp) (by norm_num) (by norm_num)).1,
    (isotonic_constant_target [0, 1] [1, 1] 1 (by simp) (by norm_num)
      (by norm_num)).2 (1 / 2)⟩

end ReverseTuring
